import Mathlib

/-!
Verification of the git-rewrite extraction/replay core against its
specification.  The Rust sources (src/lib.rs, src/unpack.rs,
src/rebuild.rs) are shallowly embedded below: pure data is translated to
Lean structures, the engine (libgit2) object store and the filesystem are
modelled as finite association lists, and each fallible operation returns
an Option or Except value.
-/

namespace GitRewrite

/-- Engine timestamp, modelling git2::Time: epoch seconds together with a
timezone offset in minutes east of UTC. -/
structure Git2Time where
  seconds : Int
  offsetMinutes : Int
deriving DecidableEq, Repr

/-- Model of a chrono DateTime with FixedOffset value: the absolute
instant as epoch seconds plus a sub-second nanosecond component, and the
fixed offset in seconds east of UTC.  chrono offsets have second
precision, not minute precision, and chrono instants carry nanosecond
precision. -/
structure ChronoDateTime where
  secs : Int
  offsetSecs : Int
  nanos : Nat
deriving DecidableEq, Repr

/-- Smallest epoch-seconds value representable by a chrono naive datetime. -/
def chronoMinSecs : Int := -8334601228800

/-- Largest epoch-seconds value representable by a chrono naive datetime. -/
def chronoMaxSecs : Int := 8210266876799

/-- A model timestamp is valid when chrono could have produced it: the
offset lies strictly between minus one day and plus one day (in
seconds), the instant is representable, and the nanosecond component is
below two billion (chrono admits values above one billion to represent
leap seconds). -/
def ChronoDateTime.valid (d : ChronoDateTime) : Prop :=
  -86400 < d.offsetSecs ∧ d.offsetSecs < 86400 ∧
    chronoMinSecs ≤ d.secs ∧ d.secs ≤ chronoMaxSecs ∧
    d.nanos < 2000000000

instance (d : ChronoDateTime) : Decidable d.valid := by
  unfold ChronoDateTime.valid chronoMinSecs chronoMaxSecs
  infer_instance

/-- Model of time::chrono_to_git2_time: the epoch seconds come from
date.timestamp(), which floors away the nanosecond component of the
instant, and the offset in seconds is divided by 60 using Rust signed
integer division, which truncates toward zero (Int.tdiv).  Both
projections are lossy. -/
def chrono_to_git2_time (date : ChronoDateTime) : Git2Time :=
  { seconds := date.secs, offsetMinutes := Int.tdiv date.offsetSecs 60 }

/-- Model of chrono FixedOffset::east_opt: accepts a number of seconds
strictly between minus one day and plus one day. -/
def east_opt (secs : Int) : Option Int :=
  if -86400 < secs ∧ secs < 86400 then some secs else none

/-- Model of chrono DateTime::from_timestamp as called at nanosecond
zero: accepts an epoch-seconds value inside the representable chrono
range. -/
def fromTimestamp (secs : Int) : Option Int :=
  if chronoMinSecs ≤ secs ∧ secs ≤ chronoMaxSecs then some secs else none

/-- Model of time::git2_to_chrono_date: rebuild the fixed offset from
the minutes stored in the engine timestamp, then rebuild the instant
from the epoch seconds at nanosecond zero; either step can fail, exactly
as in the source. -/
def git2_to_chrono_date (t : Git2Time) : Option ChronoDateTime :=
  match east_opt (t.offsetMinutes * 60) with
  | none => none
  | some off =>
    match fromTimestamp t.seconds with
    | none => none
    | some s => some { secs := s, offsetSecs := off, nanos := 0 }

/-- Captured metadata of one commit, modelling struct CommitMeta from
src/lib.rs.  The snapshot folder is a relative path given as a list of
components. -/
structure CommitMeta where
  sha : String
  parents : List String
  author_name : String
  author_email : String
  date : ChronoDateTime
  message : String
  tree_sha : String
  folder : List String
deriving DecidableEq, Repr

/-- Model of struct RepoManifest from src/lib.rs. -/
structure RepoManifest where
  name : String
  branch : String
  commits : List CommitMeta
deriving DecidableEq, Repr

/-- Model of the parent-resolution step of replay_commit (src/lib.rs lines
170 to 188): each original parent sha is looked up in the remap table,
parents absent from the table are dropped, and mapped oids whose commit
cannot be found in the repository are dropped as well; surviving parents
keep the original order.  The remap table is an association list looked up
newest-entry-first and repoCommits lists the commit oids present in the
target repository. -/
def replay_commit_parents (parents : List String)
    (old_to_new : List (String × Nat)) (repoCommits : List Nat) : List Nat :=
  (parents.filterMap fun old_sha => old_to_new.lookup old_sha).filter
    fun oid => repoCommits.contains oid

/-- The replay loop of fn main in src/rebuild.rs: replay each commit,
obtaining a fresh oid (the pure model numbers new commits consecutively
starting from the given counter), and record the mapping from the original
sha to the new oid.  New mappings are consed onto the table, so a later
insert for the same key shadows an earlier one, as with HashMap insert. -/
def rebuildLoop : List CommitMeta → Nat → List (String × Nat) → List Nat →
    List (String × Nat) × List Nat
  | [], _, sha_map, created => (sha_map, created)
  | meta :: rest, next, sha_map, created =>
      rebuildLoop rest (next + 1) ((meta.sha, next) :: sha_map) (created ++ [next])

/-- Outcome of the rebuild entry point: the oids of the commits that were
created, the branch reference created at the end, and whether the run
aborted with a panic (a non-zero exit status). -/
structure RebuildOutcome where
  created : List Nat
  branchRef : Option (String × Nat)
  panicked : Bool
deriving DecidableEq, Repr

/-- Model of fn main in src/rebuild.rs (lines 22 to 32): replay every
manifest commit in order, then unwrap the last manifest entry (a panic
when the commit list is empty), look its sha up in the remap table (a
panic via expect when absent), and create the branch reference named by
the manifest, pointing at the oid found. -/
def rebuild_main (m : RepoManifest) : RebuildOutcome :=
  let st := rebuildLoop m.commits 0 [] []
  match m.commits.getLast? with
  | none => { created := st.2, branchRef := none, panicked := true }
  | some lastMeta =>
    match st.1.lookup lastMeta.sha with
    | none => { created := st.2, branchRef := none, panicked := true }
    | some oid =>
        { created := st.2, branchRef := some (m.branch, oid), panicked := false }

/-- Rust char::is_whitespace, the Unicode White_Space property, decided on
the code point of the character. -/
def isRustWhitespace (c : Char) : Bool :=
  [0x9, 0xA, 0xB, 0xC, 0xD, 0x20, 0x85, 0xA0, 0x1680,
    0x2000, 0x2001, 0x2002, 0x2003, 0x2004, 0x2005, 0x2006, 0x2007,
    0x2008, 0x2009, 0x200A, 0x2028, 0x2029, 0x202F, 0x205F,
    0x3000].contains c.toNat

/-- Rust str::trim_end on a character list: remove the longest trailing
run of whitespace characters, leaving the rest untouched. -/
def trimEndChars (l : List Char) : List Char :=
  (l.reverse.dropWhile isRustWhitespace).reverse

/-- Rust str::trim_end on a string. -/
def rustTrimEnd (s : String) : String := ⟨trimEndChars s.data⟩

/-- Model of a git2 Commit as read by the capture step: the sha, the
author name and email (None when the field is absent or not valid UTF-8,
as with the git2 accessors), the message (None likewise), the native
timestamp, the parent shas in their original order, and the tree sha. -/
structure GCommit where
  id : String
  authorName : Option String
  authorEmail : Option String
  message : Option String
  time : Git2Time
  parent_ids : List String
  tree_id : String
deriving DecidableEq, Repr

/-- Model of CommitMeta::from_commit (src/lib.rs lines 193 to 224): the
author name and email fall back to the literal "unknown" when absent, the
message falls back to the empty string and has trailing whitespace
trimmed, the timestamp is converted through the time codec (the only
fallible step), the parent shas keep their original order, and the given
folder is stored as the snapshot location. -/
def CommitMeta.from_commit (commit : GCommit) (folder : List String) :
    Option CommitMeta :=
  match git2_to_chrono_date commit.time with
  | none => none
  | some date =>
      some { sha := commit.id,
             parents := commit.parent_ids,
             author_name := commit.authorName.getD "unknown",
             author_email := commit.authorEmail.getD "unknown",
             date := date,
             message := rustTrimEnd (commit.message.getD ""),
             tree_sha := commit.tree_id,
             folder := folder }

/-- Minimal JSON value model, enough to state the shape of the serialized
manifest.  The date constructor keeps the timestamp structured: chrono
renders it as ISO-8601 text with the explicit offset, and that textual
encoding is external-library mechanics, out of scope per the spec. -/
inductive JVal where
  | str : String → JVal
  | date : ChronoDateTime → JVal
  | arr : List JVal → JVal
  | obj : List (String × JVal) → JVal

/-- Serde serialization shape of one CommitMeta (derive Serialize on
src/lib.rs lines 39 to 49): exactly the declared fields, under their
declared names, in declaration order. -/
def commitMetaJson (c : CommitMeta) : List (String × JVal) :=
  [("sha", JVal.str c.sha),
   ("parents", JVal.arr (c.parents.map JVal.str)),
   ("author_name", JVal.str c.author_name),
   ("author_email", JVal.str c.author_email),
   ("date", JVal.date c.date),
   ("message", JVal.str c.message),
   ("tree_sha", JVal.str c.tree_sha),
   ("folder", JVal.str (String.intercalate "/" c.folder))]

/-- Serde serialization shape of the manifest (derive Serialize on
src/lib.rs lines 51 to 56). -/
def repoManifestJson (m : RepoManifest) : List (String × JVal) :=
  [("name", JVal.str m.name),
   ("branch", JVal.str m.branch),
   ("commits", JVal.arr (m.commits.map fun c => JVal.obj (commitMetaJson c)))]

/-- Field names, in order, of the struct literal that fn main in
src/unpack.rs (lines 22 to 27) uses to build the manifest record.  The
struct RepoManifest declares no signing_keys field, so this literal does
not compile against the declared record shape. -/
def unpackManifestLiteralFields : List String :=
  ["name", "branch", "signing_keys", "commits"]

/-- A commit graph: association list from a commit oid to its ordered list
of parent oids, modelling the part of the object store that the revision
walk can see. -/
abbrev CommitGraph := List (Nat × List Nat)

/-- The ordered parent oids of a commit, empty when the oid is not in the
graph. -/
def parentsOf (g : CommitGraph) (n : Nat) : List Nat := (g.lookup n).getD []

/-- Whether an oid names a commit of the graph. -/
def isNode (g : CommitGraph) (n : Nat) : Bool := (g.lookup n).isSome

/-- Breadth-first collection of the commits reachable from the queue,
with a visited accumulator; the fuel bounds the number of processed queue
entries.  Models the set of commits that the revision walk enumerates
after the branch head is pushed. -/
def reachAux (g : CommitGraph) : Nat → List Nat → List Nat → List Nat
  | 0, visited, _ => visited
  | _ + 1, visited, [] => visited
  | fuel + 1, visited, x :: queue =>
      if x ∈ visited then reachAux g fuel visited queue
      else reachAux g fuel (visited ++ [x])
        (queue ++ (parentsOf g x).filter fun p => isNode g p)

/-- Fuel sufficient to drain the reachability queue on any input: one for
the pushed head plus one per parent edge of the graph. -/
def reachFuel (g : CommitGraph) : Nat :=
  1 + (g.map fun e => e.2.length).sum

/-- The commits reachable from the branch head, or nothing when the head
does not resolve (the walk push of a missing ref fails). -/
def reachableFrom (g : CommitGraph) (head : Nat) : List Nat :=
  if isNode g head then reachAux g (reachFuel g) [] [head] else []

/-- Whether every parent of n that is in the graph is already emitted, so
that the topological sort may emit n next. -/
def readyIn (g : CommitGraph) (emitted : List Nat) (n : Nat) : Bool :=
  (parentsOf g n).all fun p => !isNode g p || emitted.contains p

/-- Kahn-style topological sort: repeatedly emit the first pending commit
all of whose in-graph parents are already emitted.  This models the
guarantee documented for the libgit2 revision walk under the TOPOLOGICAL
and REVERSE sorting flags, namely that every commit is shown only after
all of its parents have been shown. -/
def kahn (g : CommitGraph) : Nat → List Nat → List Nat → List Nat
  | 0, emitted, _ => emitted
  | fuel + 1, emitted, pending =>
      match pending.find? (readyIn g emitted) with
      | none => emitted
      | some n => kahn g fuel (emitted ++ [n]) (pending.erase n)

/-- Model of collect_all_commits (src/lib.rs lines 58 to 74): push the
branch head, then enumerate the reachable commits sorted TOPOLOGICAL and
REVERSE, so that parents precede their children.  The walk itself is
engine code external to the repository; it is modelled by the sort above,
faithful to its documented ordering guarantee. -/
def collect_all_commits (g : CommitGraph) (branch_head : Nat) : List Nat :=
  let reach := reachableFrom g branch_head
  kahn g reach.length [] reach

/-- Strict topological order of a commit sequence: whenever a commit of
the sequence has an in-graph parent, that parent is in the sequence at a
strictly smaller position. -/
def TopoOrd (g : CommitGraph) (l : List Nat) : Prop :=
  ∀ b ∈ l, ∀ a ∈ parentsOf g b, isNode g a = true →
    a ∈ l ∧ List.indexOf a l < List.indexOf b l

/-- Leading-segment relation on paths: p is a leading segment of q. -/
def SegPre (p q : List String) : Prop := q.take p.length = p

instance (p q : List String) : Decidable (SegPre p q) := by
  unfold SegPre
  infer_instance

/-- Filesystem node: a directory or a regular file with byte content. -/
inductive FNode where
  | dir : FNode
  | file : List Nat → FNode
deriving DecidableEq, Repr

/-- A filesystem region: a finite association list from relative paths
(component lists) to nodes; the root of the region always exists and is
not listed. -/
abbrev FS := List (List String × FNode)

/-- The paths present in a filesystem region. -/
def dom (fs : FS) : List (List String) := fs.map Prod.fst

/-- The nonempty leading segments of a path, shortest first. -/
def prefixesOf (p : List String) : List (List String) :=
  (List.range p.length).map fun k => p.take (k + 1)

/-- Create one directory when its path is absent. -/
def mkdirOne (fs : FS) (p : List String) : FS :=
  if p ∈ dom fs then fs else fs ++ [(p, FNode.dir)]

/-- fs::create_dir_all on the model filesystem: create every missing
nonempty leading segment of the path as a directory, shortest first. -/
def mkdirAll (p : List String) (fs : FS) : FS :=
  (prefixesOf p).foldl mkdirOne fs

/-- fs::write on the model filesystem: overwrite the node at the path when
present, otherwise append the new file. -/
def writeFS (p : List String) (c : List Nat) (fs : FS) : FS :=
  if p ∈ dom fs
  then fs.map fun e => if e.1 = p then (p, FNode.file c) else e
  else fs ++ [(p, FNode.file c)]

/-- Kind of a tree entry, as git2 derives an ObjectType from the entry
filemode: blobs and sub-trees are materialized by the exporter; a commit
entry is a submodule link. -/
inductive EKind where
  | blob : EKind
  | tree : EKind
  | commit : EKind
deriving DecidableEq, Repr

/-- One tree entry: its name (None models a name that is not valid UTF-8,
for which the git2 name accessor returns None), the oid of its target and
its kind. -/
structure TreeEntry where
  name : Option String
  id : Nat
  kind : EKind
deriving DecidableEq, Repr

/-- An object of the store: file content, a tree, or an object of another
kind. -/
inductive GObj where
  | blob : List Nat → GObj
  | tree : List TreeEntry → GObj
  | other : GObj
deriving DecidableEq, Repr

/-- The engine object store, keyed by oid. -/
abbrev Store := List (Nat × GObj)

/-- How a run ends when it does not return cleanly: a panic (an unchecked
unwrap) is distinct from a returned error. -/
inductive RunErr where
  | panic : RunErr
  | fail : RunErr
deriving DecidableEq, Repr

/-- repo.find_tree: the object must exist and be a tree. -/
def find_tree (store : Store) (oid : Nat) : Except RunErr (List TreeEntry) :=
  match store.lookup oid with
  | some (GObj.tree es) => Except.ok es
  | _ => Except.error RunErr.fail

/-- repo.find_blob: the object must exist and be a blob. -/
def find_blob (store : Store) (oid : Nat) : Except RunErr (List Nat) :=
  match store.lookup oid with
  | some (GObj.blob c) => Except.ok c
  | _ => Except.error RunErr.fail

/-- Model of the entry loop of export_tree (src/lib.rs lines 79 to 99),
processing the entries of one tree against the filesystem region rooted
at the output directory, with cwd the directory of the tree relative to
that root and subT the treatment of a sub-tree entry.  The name accessor
unwrap panics on a non-UTF-8 entry name; a blob entry creates the parent
directory chain and writes the blob bytes; a sub-tree entry creates its
directory and hands its oid to subT; entries of any other kind are
silently skipped. -/
def exportFold (store : Store)
    (subT : Nat → List String → FS → Except RunErr FS) :
    List TreeEntry → List String → FS → Except RunErr FS
  | [], _, fs => Except.ok fs
  | e :: es, cwd, fs =>
      match e.name with
      | none => Except.error RunErr.panic
      | some n =>
          match e.kind with
          | EKind.blob =>
              match find_blob store e.id with
              | Except.error er => Except.error er
              | Except.ok c =>
                  exportFold store subT es cwd
                    (writeFS (cwd ++ [n]) c (mkdirAll cwd fs))
          | EKind.tree =>
              match subT e.id (cwd ++ [n]) (mkdirAll (cwd ++ [n]) fs) with
              | Except.error er => Except.error er
              | Except.ok fs' => exportFold store subT es cwd fs'
          | EKind.commit => exportFold store subT es cwd fs

/-- The recursion of export_tree, by depth: at each level a sub-tree
entry looks its tree up and descends one level; the fuel bounds the
depth, as the Rust recursion is bounded by the depth of the acyclic
store. -/
def exportEntries (store : Store) : Nat → List TreeEntry → List String →
    FS → Except RunErr FS
  | 0 => exportFold store fun _ _ _ => Except.error RunErr.fail
  | fuel + 1 => exportFold store fun oid cwd fs =>
      match find_tree store oid with
      | Except.error er => Except.error er
      | Except.ok sub => exportEntries store fuel sub cwd fs

/-- Model of export_tree (src/lib.rs lines 76 to 102), run against the
output directory taken as filesystem root. -/
def export_tree (store : Store) (fuel : Nat) (tree_oid : Nat) (fs : FS) :
    Except RunErr FS :=
  match find_tree store tree_oid with
  | Except.error er => Except.error er
  | Except.ok es => exportEntries store fuel es [] fs

/-- The regular files and directories represented by one list of tree
entries, as relative paths with their content, in traversal order, with
subD the denotation of a sub-tree entry.  This follows the wording of
the specification for the TreeExporter guarantee and is the reference
against which the stateful exporter is compared; None when an object is
missing or an entry name is not representable. -/
def denoteFold (store : Store) (subD : Nat → List String → Option FS) :
    List TreeEntry → List String → Option FS
  | [], _ => some []
  | e :: es, cwd =>
      match e.name with
      | none => none
      | some n =>
          match e.kind with
          | EKind.blob =>
              match find_blob store e.id with
              | Except.error _ => none
              | Except.ok c =>
                  match denoteFold store subD es cwd with
                  | none => none
                  | some rest => some ((cwd ++ [n], FNode.file c) :: rest)
          | EKind.tree =>
              match subD e.id (cwd ++ [n]) with
              | none => none
              | some inner =>
                  match denoteFold store subD es cwd with
                  | none => none
                  | some rest =>
                      some ((cwd ++ [n], FNode.dir) :: (inner ++ rest))
          | EKind.commit => denoteFold store subD es cwd

/-- The denotation of tree entries, by depth, mirroring the depth
recursion of the exporter. -/
def denoteEntries (store : Store) : Nat → List TreeEntry → List String →
    Option FS
  | 0 => denoteFold store fun _ _ => none
  | fuel + 1 => denoteFold store fun oid cwd =>
      match find_tree store oid with
      | Except.error _ => none
      | Except.ok sub => denoteEntries store fuel sub cwd

/-- The files and directories represented by a tree object. -/
def denoteTree (store : Store) (fuel : Nat) (tree_oid : Nat) : Option FS :=
  match find_tree store tree_oid with
  | Except.error _ => none
  | Except.ok es => denoteEntries store fuel es []

/-- Entry names of a tree object are pairwise distinct. -/
def treeNamesOk : GObj → Prop
  | GObj.tree es => (es.map fun e => e.name).Nodup
  | _ => True

instance (o : GObj) : Decidable (treeNamesOk o) := by
  cases o <;> simp only [treeNamesOk] <;> infer_instance

/-- Well-formed store: within each tree object the entry names are
pairwise distinct, as in a real git tree. -/
def WFStore (store : Store) : Prop := ∀ pr ∈ store, treeNamesOk pr.2

instance (store : Store) : Decidable (WFStore store) := by
  unfold WFStore
  infer_instance

/-- Every entry name of a tree object is valid UTF-8. -/
def namesUTF8 : GObj → Prop
  | GObj.tree es => ∀ e ∈ es, e.name.isSome = true
  | _ => True

instance (o : GObj) : Decidable (namesUTF8 o) := by
  cases o <;> simp only [namesUTF8] <;> infer_instance

/-- Every tree of the store carries only valid UTF-8 entry names. -/
def AllNamesUTF8 (store : Store) : Prop := ∀ pr ∈ store, namesUTF8 pr.2

instance (store : Store) : Decidable (AllNamesUTF8 store) := by
  unfold AllNamesUTF8
  infer_instance

/-- The reserved metadata filename that copy_commit_files skips. -/
def metaName : String := ".commit-meta.json"

/-- Processing of one walk entry by copy_commit_files: the entry is
skipped when its base name is the reserved metadata name; otherwise a
directory is created at its relative path and a file is copied there
after its parent chain is created. -/
def copyStep (dest : FS) (p : List String) (node : FNode) : FS :=
  match p.getLast? with
  | none => dest
  | some n =>
      if n = metaName then dest
      else
        match node with
        | FNode.dir => mkdirAll p dest
        | FNode.file c => writeFS p c (mkdirAll p.dropLast dest)

/-- Model of copy_commit_files (src/lib.rs lines 104 to 129): the walk
yields every entry of the snapshot directory, parents before children,
each given by its relative path; every entry is processed independently
by copyStep (the walk continues into a skipped directory, as the source
skips single entries only).  The root entry of the walk is the snapshot
directory itself, whose copy is the already existing destination root,
so the model takes the non-root entries. -/
def copy_commit_files (src : List (List String × FNode)) (dest : FS) : FS :=
  src.foldl (fun acc pr => copyStep acc pr.1 pr.2) dest

end GitRewrite

namespace GitRewrite

/-- Claim C3, as stated, is refuted on two counts.  A timestamp whose
offset is not a whole number of minutes does not round-trip: chrono
offsets have second precision and the conversion truncates the offset to
minutes, so at offset 30 seconds the round trip returns offset 0.  And a
timestamp whose instant is not a whole number of seconds does not
round-trip even at offset 0: chrono instants have nanosecond precision,
date.timestamp() floors the nanoseconds away and the reverse conversion
rebuilds the instant at nanosecond zero, so half a second past the epoch
the round trip returns the epoch. -/
theorem c3_offset_truncation_counterexample :
    ((ChronoDateTime.valid { secs := 0, offsetSecs := 30, nanos := 0 }) ∧
      git2_to_chrono_date
          (chrono_to_git2_time { secs := 0, offsetSecs := 30, nanos := 0 }) ≠
        some { secs := 0, offsetSecs := 30, nanos := 0 }) ∧
      (ChronoDateTime.valid { secs := 0, offsetSecs := 0, nanos := 500000000 }) ∧
      git2_to_chrono_date
          (chrono_to_git2_time { secs := 0, offsetSecs := 0, nanos := 500000000 }) ≠
        some { secs := 0, offsetSecs := 0, nanos := 500000000 } := by
  decide

/-- Claim C3 (amended): for every valid timestamp whose offset is a
whole number of minutes and whose instant is a whole number of seconds
(nanosecond component zero), converting to the engine representation and
back returns the same instant with the same offset, the offset preserved
exactly and not normalized to UTC. -/
theorem c3_time_roundtrip (d : ChronoDateTime) (hv : d.valid)
    (hm : (60 : Int) ∣ d.offsetSecs) (hz : d.nanos = 0) :
    git2_to_chrono_date (chrono_to_git2_time d) = some d := by
  obtain ⟨s, o, nn⟩ := d
  obtain ⟨k, hk⟩ := hm
  obtain ⟨h1, h2, h3, h4, _⟩ := hv
  have hz' : nn = 0 := hz
  subst hz'
  have hk' : o = 60 * k := hk
  have hdiv : Int.tdiv o 60 = k := by
    rw [hk']
    exact Int.mul_tdiv_cancel_left k (by decide)
  have hmul : Int.tdiv o 60 * 60 = o := by
    rw [hdiv, hk', mul_comm]
  simp only [git2_to_chrono_date, chrono_to_git2_time, east_opt,
    fromTimestamp, hmul]
  rw [if_pos ⟨h1, h2⟩, if_pos ⟨h3, h4⟩]

/-- Witness for the amended claim C3 at the four offsets named by the
specification: UTC, +09:00, -05:00 and +05:30, all at the same
whole-second instant. -/
theorem c3_time_roundtrip_witness :
    git2_to_chrono_date
        (chrono_to_git2_time { secs := 1700000000, offsetSecs := 0, nanos := 0 }) =
        some { secs := 1700000000, offsetSecs := 0, nanos := 0 } ∧
      git2_to_chrono_date
          (chrono_to_git2_time
            { secs := 1700000000, offsetSecs := 32400, nanos := 0 }) =
        some { secs := 1700000000, offsetSecs := 32400, nanos := 0 } ∧
      git2_to_chrono_date
          (chrono_to_git2_time
            { secs := 1700000000, offsetSecs := -18000, nanos := 0 }) =
        some { secs := 1700000000, offsetSecs := -18000, nanos := 0 } ∧
      git2_to_chrono_date
          (chrono_to_git2_time
            { secs := 1700000000, offsetSecs := 19800, nanos := 0 }) =
        some { secs := 1700000000, offsetSecs := 19800, nanos := 0 } :=
  ⟨c3_time_roundtrip _ (by decide) (by decide) rfl,
   c3_time_roundtrip _ (by decide) (by decide) rfl,
   c3_time_roundtrip _ (by decide) (by decide) rfl,
   c3_time_roundtrip _ (by decide) (by decide) rfl⟩

/-- Helper: a value returned by an association list lookup occurs among
the stored values. -/
theorem lookup_value_mem {α β : Type} [BEq α] :
    ∀ (l : List (α × β)) (k : α) (v : β),
      l.lookup k = some v → v ∈ l.map Prod.snd
  | [], _, _, h => by simp [List.lookup] at h
  | (k', v') :: rest, k, v, h => by
      by_cases hk : k == k'
      · simp [List.lookup, hk] at h
        simp [h]
      · simp only [List.lookup, hk] at h
        exact List.mem_cons_of_mem _ (lookup_value_mem rest k v h)

/-- Helper: when every listed key has a table entry, the filterMap of the
lookups relates pointwise to the key list. -/
theorem forall2_lookup_filterMap (t : List (String × Nat)) :
    ∀ ps : List String, (∀ p ∈ ps, (t.lookup p).isSome) →
      List.Forall₂ (fun p q => t.lookup p = some q) ps
        (ps.filterMap fun s => t.lookup s)
  | [], _ => by simp
  | p :: ps, hall => by
      obtain ⟨q, hq⟩ := Option.isSome_iff_exists.1 (hall p (List.mem_cons_self p ps))
      simp only [List.filterMap_cons, hq]
      exact List.Forall₂.cons hq
        (forall2_lookup_filterMap t ps fun x hx => hall x (List.mem_cons_of_mem p hx))

/-- Claim C2: for every metadata record and remap table whose stored oids
all name commits present in the repository (as the rebuild loop
guarantees, since every table entry comes from a created commit), the
replayed parent list is exactly the remap-table image of those original
parents present in the table, in the original parent order, parents absent
from the table silently dropped with no error; and when every original
parent is present in the table the parent list relates one-to-one, in
order, to the original parent list. -/
theorem c2_replay_parent_resolution (ps : List String)
    (old_to_new : List (String × Nat)) (repoCommits : List Nat)
    (himg : ∀ v ∈ old_to_new.map Prod.snd, repoCommits.contains v = true) :
    replay_commit_parents ps old_to_new repoCommits =
        ps.filterMap (fun s => old_to_new.lookup s) ∧
      ((∀ p ∈ ps, (old_to_new.lookup p).isSome) →
        List.Forall₂ (fun p q => old_to_new.lookup p = some q) ps
          (replay_commit_parents ps old_to_new repoCommits)) := by
  have heq : replay_commit_parents ps old_to_new repoCommits =
      ps.filterMap (fun s => old_to_new.lookup s) := by
    unfold replay_commit_parents
    apply List.filter_eq_self.2
    intro oid hmem
    obtain ⟨s, _, hlk⟩ := List.mem_filterMap.1 hmem
    exact himg oid (lookup_value_mem old_to_new s oid hlk)
  refine ⟨heq, fun hall => ?_⟩
  rw [heq]
  exact forall2_lookup_filterMap old_to_new ps hall

/-- Witness for claim C2 on a concrete two-parent record whose parents are
both in the table: the replayed parent list is the remapped pair in the
original order. -/
theorem c2_replay_parent_resolution_witness :
    replay_commit_parents ["a", "b"] [("b", 11), ("a", 10)] [10, 11] = [10, 11] ∧
      List.Forall₂ (fun p q => (List.lookup p [("b", 11), ("a", 10)]) = some q)
        ["a", "b"] (replay_commit_parents ["a", "b"] [("b", 11), ("a", 10)] [10, 11]) := by
  have h := c2_replay_parent_resolution ["a", "b"] [("b", 11), ("a", 10)] [10, 11]
    (by decide)
  refine ⟨?_, h.2 (by decide)⟩
  rw [h.1]
  decide

/-- Helper: the rebuild loop on a non-empty record list records, for the
sha of the last record, an oid that is also the last created oid. -/
theorem rebuildLoop_last_spec :
    ∀ (ms : List CommitMeta) (next : Nat) (sha_map : List (String × Nat))
      (created : List Nat), ms ≠ [] →
      ∃ lm oid, ms.getLast? = some lm ∧
        (rebuildLoop ms next sha_map created).1.lookup lm.sha = some oid ∧
        (rebuildLoop ms next sha_map created).2.getLast? = some oid
  | [], _, _, _, h => absurd rfl h
  | [meta], next, sha_map, created, _ => by
      refine ⟨meta, next, rfl, ?_, ?_⟩
      · simp only [rebuildLoop]
        exact List.lookup_cons_self
      · simp only [rebuildLoop]
        exact List.getLast?_concat created
  | meta :: m2 :: rest, next, sha_map, created, _ => by
      obtain ⟨lm, oid, h1, h2, h3⟩ := rebuildLoop_last_spec (m2 :: rest) (next + 1)
        ((meta.sha, next) :: sha_map) (created ++ [next]) (by simp)
      exact ⟨lm, oid, by rw [List.getLast?_cons_cons]; exact h1, h2, h3⟩

/-- Claim C6: on an empty manifest the rebuild entry point panics (a
non-zero exit status) having created no commit and no branch reference; on
a non-empty manifest it does not panic and creates a branch reference
named after the stored branch name, pointing at the last created
commit. -/
theorem c6_rebuild_branch (m : RepoManifest) :
    (m.commits = [] →
        rebuild_main m = { created := [], branchRef := none, panicked := true }) ∧
      (m.commits ≠ [] →
        (rebuild_main m).panicked = false ∧
          ∃ oid, (rebuild_main m).created.getLast? = some oid ∧
            (rebuild_main m).branchRef = some (m.branch, oid)) := by
  constructor
  · intro h
    simp only [rebuild_main, h]
    rfl
  · intro h
    obtain ⟨lm, oid, h1, h2, h3⟩ := rebuildLoop_last_spec m.commits 0 [] [] h
    simp only [rebuild_main, h1, h2]
    exact ⟨by trivial, oid, h3, by trivial⟩

/-- Witness for claim C6: the empty manifest panics with nothing created,
and a concrete one-commit manifest does not panic. -/
theorem c6_rebuild_branch_witness :
    rebuild_main ⟨"r", "main", []⟩ = ⟨[], none, true⟩ ∧
      (rebuild_main
          ⟨"r", "main", [⟨"s1", [], "a", "e", ⟨0, 0, 0⟩, "m", "t", ["f"]⟩]⟩).panicked =
        false := by
  constructor
  · exact (c6_rebuild_branch _).1 rfl
  · exact ((c6_rebuild_branch _).2 (by simp)).1

/-- Helper: Rust trim_end splits a character list into the returned
portion plus a trailing all-whitespace run, and the returned portion does
not end in whitespace. -/
theorem trimEndChars_spec (l : List Char) :
    ∃ ws, l = trimEndChars l ++ ws ∧ (∀ c ∈ ws, isRustWhitespace c = true) ∧
      ∀ c, (trimEndChars l).getLast? = some c → isRustWhitespace c = false := by
  refine ⟨(l.reverse.takeWhile isRustWhitespace).reverse, ?_, ?_, ?_⟩
  · have h : l.reverse.takeWhile isRustWhitespace ++
        l.reverse.dropWhile isRustWhitespace = l.reverse :=
      List.takeWhile_append_dropWhile _ _
    calc l = l.reverse.reverse := (List.reverse_reverse l).symm
      _ = (l.reverse.takeWhile isRustWhitespace ++
            l.reverse.dropWhile isRustWhitespace).reverse := by rw [h]
      _ = trimEndChars l ++ (l.reverse.takeWhile isRustWhitespace).reverse := by
            rw [List.reverse_append]; rfl
  · intro c hc
    rw [List.mem_reverse] at hc
    exact List.mem_takeWhile_imp hc
  · intro c hc
    unfold trimEndChars at hc
    rw [List.getLast?_reverse] at hc
    have h := List.head?_dropWhile_not isRustWhitespace l.reverse
    rw [hc] at h
    exact h

/-- Claim C5: a successful capture produces a record whose author name and
email equal the commit value, or the literal "unknown" when the field is
absent; whose message is the original message (empty when absent) with
exactly a trailing whitespace run removed and the remaining content
untouched; whose timestamp is the time-codec conversion of the native
timestamp; whose parent shas keep the original order; and whose snapshot
location is the given folder. -/
theorem c5_from_commit_capture (c : GCommit) (folder : List String)
    (m : CommitMeta) (h : CommitMeta.from_commit c folder = some m) :
    (∀ n, c.authorName = some n → m.author_name = n) ∧
      (c.authorName = none → m.author_name = "unknown") ∧
      (∀ n, c.authorEmail = some n → m.author_email = n) ∧
      (c.authorEmail = none → m.author_email = "unknown") ∧
      (∃ ws, (c.message.getD "").data = m.message.data ++ ws ∧
        (∀ ch ∈ ws, isRustWhitespace ch = true) ∧
        ∀ ch, m.message.data.getLast? = some ch → isRustWhitespace ch = false) ∧
      git2_to_chrono_date c.time = some m.date ∧
      m.parents = c.parent_ids ∧
      m.folder = folder := by
  unfold CommitMeta.from_commit at h
  cases htime : git2_to_chrono_date c.time with
  | none => rw [htime] at h; exact absurd h (by simp)
  | some d =>
      rw [htime] at h
      injection h with h
      subst h
      refine ⟨fun n hn => by simp [hn], fun hn => by simp [hn],
        fun n hn => by simp [hn], fun hn => by simp [hn], ?_, rfl, rfl, rfl⟩
      exact trimEndChars_spec (c.message.getD "").data

/-- Witness for claim C5 at a concrete commit: the message loses exactly
its trailing whitespace and the absent email falls back to "unknown". -/
theorem c5_from_commit_capture_witness :
    (∃ ws, (String.data "hi \t") = (String.data "hi") ++ ws ∧
        (∀ ch ∈ ws, isRustWhitespace ch = true) ∧
        ∀ ch, (String.data "hi").getLast? = some ch →
          isRustWhitespace ch = false) ∧
      ("unknown" : String) = "unknown" := by
  have h := c5_from_commit_capture
    ⟨"s", some "Al", none, some "hi \t", ⟨100, 60⟩, ["p1"], "t"⟩ ["snap"]
    ⟨"s", ["p1"], "Al", "unknown", ⟨100, 3600, 0⟩, "hi", "t", ["snap"]⟩ (by decide)
  exact ⟨h.2.2.2.2.1, (h.2.2.2.1 rfl).symm ▸ rfl⟩

/-- Claim C10: capture fails exactly when the timestamp conversion fails;
an absent author name or email falls back to the literal "unknown" and an
absent message is captured as the empty string, never causing a
failure. -/
theorem c10_from_commit_error_iff (c : GCommit) (folder : List String) :
    (CommitMeta.from_commit c folder).isSome =
        (git2_to_chrono_date c.time).isSome ∧
      ∀ m, CommitMeta.from_commit c folder = some m →
        (c.authorName = none → m.author_name = "unknown") ∧
          (c.authorEmail = none → m.author_email = "unknown") ∧
          (c.message = none → m.message = "") := by
  unfold CommitMeta.from_commit
  cases htime : git2_to_chrono_date c.time with
  | none => simp
  | some d =>
      refine ⟨by simp, fun m hm => ?_⟩
      injection hm with hm
      subst hm
      exact ⟨fun hn => by simp [hn], fun hn => by simp [hn],
        fun hn => by simp [hn]; rfl⟩

/-- Witness for claim C10: an out-of-range offset makes capture fail, and
with a valid timestamp the absent author name is captured as "unknown". -/
theorem c10_from_commit_error_iff_witness :
    (CommitMeta.from_commit ⟨"s", none, none, none, ⟨0, 10000⟩, [], "t"⟩
        []).isSome = false ∧
      (CommitMeta.from_commit ⟨"s", none, none, none, ⟨5, 0⟩, [], "t"⟩ []).map
        CommitMeta.author_name = some "unknown" := by
  have h1 := (c10_from_commit_error_iff
    ⟨"s", none, none, none, ⟨0, 10000⟩, [], "t"⟩ []).1
  have h2 := (c10_from_commit_error_iff
    ⟨"s", none, none, none, ⟨5, 0⟩, [], "t"⟩ []).2
  constructor
  · rw [h1]; decide
  · have hm : CommitMeta.from_commit ⟨"s", none, none, none, ⟨5, 0⟩, [], "t"⟩ [] =
        some ⟨"s", [], "unknown", "unknown", ⟨5, 0, 0⟩, "", "t", []⟩ := by decide
    rw [hm]
    exact congrArg some ((h2 _ hm).1 rfl).symm ▸ rfl

/-- Claim C7: the serialized manifest shape.  The declared record shape
(src/lib.rs) serializes to exactly the claimed keys, but the struct
literal in the extract entry point (src/unpack.rs) carries an extra
signing_keys field absent from the declared shape, so the two entry points
do not agree on the record shape and the extract entry point does not even
compile against the declared struct. -/
theorem c7_manifest_shape (m : RepoManifest) :
    (repoManifestJson m).map Prod.fst = ["name", "branch", "commits"] ∧
      (∀ c ∈ m.commits, (commitMetaJson c).map Prod.fst =
        ["sha", "parents", "author_name", "author_email", "date", "message",
          "tree_sha", "folder"]) ∧
      unpackManifestLiteralFields ≠ (repoManifestJson m).map Prod.fst := by
  refine ⟨rfl, fun c _ => rfl, ?_⟩
  rw [show (repoManifestJson m).map Prod.fst = ["name", "branch", "commits"]
    from rfl]
  decide

/-- Helper: appending a fresh element preserves Nodup. -/
theorem nodup_append_single {l : List Nat} {a : Nat} (h : l.Nodup) (ha : a ∉ l) :
    (l ++ [a]).Nodup := by
  rw [List.nodup_append]
  exact ⟨h, List.nodup_singleton a,
    fun x hx hxa => ha ((List.mem_singleton.1 hxa) ▸ hx)⟩

/-- Helper: the reachability walk keeps the visited list duplicate-free
and visits only commits of the graph. -/
theorem reachAux_sound (g : CommitGraph) :
    ∀ (fuel : Nat) (visited queue : List Nat),
      visited.Nodup → (∀ n ∈ visited, isNode g n = true) →
      (∀ n ∈ queue, isNode g n = true) →
      (reachAux g fuel visited queue).Nodup ∧
        ∀ n ∈ reachAux g fuel visited queue, isNode g n = true
  | 0, _, _, h1, h2, _ => ⟨h1, h2⟩
  | _ + 1, _, [], h1, h2, _ => ⟨h1, h2⟩
  | fuel + 1, visited, x :: queue, h1, h2, h3 => by
      by_cases hx : x ∈ visited
      · simp only [reachAux, if_pos hx]
        exact reachAux_sound g fuel visited queue h1 h2
          fun n hn => h3 n (List.mem_cons_of_mem x hn)
      · simp only [reachAux, if_neg hx]
        refine reachAux_sound g fuel (visited ++ [x]) _
          (nodup_append_single h1 hx) (fun n hn => ?_) (fun n hn => ?_)
        · rcases List.mem_append.1 hn with h | h
          · exact h2 n h
          · exact (List.mem_singleton.1 h) ▸ h3 x (List.mem_cons_self x queue)
        · rcases List.mem_append.1 hn with h | h
          · exact h3 n (List.mem_cons_of_mem x h)
          · exact (List.mem_filter.1 h).2

/-- Helper: the topological sort emits a duplicate-free sequence drawn
from its inputs, in which every emitted commit follows all of its
in-graph parents. -/
theorem kahn_invariant (g : CommitGraph) :
    ∀ (fuel : Nat) (emitted pending : List Nat),
      emitted.Nodup → pending.Nodup →
      (∀ n ∈ pending, n ∉ emitted) →
      TopoOrd g emitted →
      (kahn g fuel emitted pending).Nodup ∧
        TopoOrd g (kahn g fuel emitted pending) ∧
        ∀ n ∈ kahn g fuel emitted pending, n ∈ emitted ∨ n ∈ pending
  | 0, _, _, h1, _, _, h4 => ⟨h1, h4, fun n hn => Or.inl hn⟩
  | fuel + 1, emitted, pending, h1, h2, h3, h4 => by
      cases hf : pending.find? (readyIn g emitted) with
      | none =>
          simp only [kahn, hf]
          exact ⟨h1, h4, fun n hn => Or.inl hn⟩
      | some n =>
          have hready : readyIn g emitted n = true := List.find?_some hf
          have hnp : n ∈ pending := List.mem_of_find?_eq_some hf
          have hne : n ∉ emitted := h3 n hnp
          have hord : TopoOrd g (emitted ++ [n]) := by
            intro b hb a ha hna
            rcases List.mem_append.1 hb with hb | hb
            · obtain ⟨haem, hidx⟩ := h4 b hb a ha hna
              refine ⟨List.mem_append_left _ haem, ?_⟩
              rw [List.indexOf_append_of_mem haem, List.indexOf_append_of_mem hb]
              exact hidx
            · have hbn : b = n := List.mem_singleton.1 hb
              subst hbn
              have hall : ∀ p ∈ parentsOf g b,
                  (!isNode g p || emitted.contains p) = true := by
                have h := hready
                unfold readyIn at h
                exact List.all_eq_true.1 h
              have hpa := hall a ha
              rw [hna] at hpa
              simp only [Bool.not_true, Bool.false_or] at hpa
              have haem : a ∈ emitted := by simpa using hpa
              refine ⟨List.mem_append_left _ haem, ?_⟩
              rw [List.indexOf_append_of_mem haem,
                List.indexOf_append_of_not_mem hne, List.indexOf_cons_self,
                Nat.add_zero]
              exact List.indexOf_lt_length.2 haem
          obtain ⟨r1, r2, r3⟩ := kahn_invariant g fuel (emitted ++ [n])
            (pending.erase n) (nodup_append_single h1 hne)
            (List.Nodup.erase n h2)
            (fun m hm => by
              obtain ⟨hmn, hmp⟩ := (List.Nodup.mem_erase_iff h2).1 hm
              intro hc
              rcases List.mem_append.1 hc with hc | hc
              · exact h3 m hmp hc
              · exact hmn (List.mem_singleton.1 hc))
            hord
          simp only [kahn, hf]
          refine ⟨r1, r2, fun m hm => ?_⟩
          rcases r3 m hm with hc | hc
          · rcases List.mem_append.1 hc with hc | hc
            · exact Or.inl hc
            · exact Or.inr ((List.mem_singleton.1 hc) ▸ hnp)
          · exact Or.inr (List.mem_of_mem_erase hc)

/-- Claim C1: for every graph and branch head, the sequence returned by
collect_all_commits is a strict topological order: whenever a commit A of
the sequence is an original parent of a commit B of the sequence, the
position of A is strictly smaller than the position of B. -/
theorem c1_collect_topological (g : CommitGraph) (head a b : Nat)
    (ha : a ∈ collect_all_commits g head) (hb : b ∈ collect_all_commits g head)
    (hpar : a ∈ parentsOf g b) :
    List.indexOf a (collect_all_commits g head) <
      List.indexOf b (collect_all_commits g head) := by
  have hreach : (reachableFrom g head).Nodup ∧
      ∀ n ∈ reachableFrom g head, isNode g n = true := by
    unfold reachableFrom
    by_cases hh : isNode g head = true
    · rw [if_pos hh]
      refine reachAux_sound g (reachFuel g) [] [head] List.nodup_nil
        (fun n hn => absurd hn (List.not_mem_nil n)) fun n hn => ?_
      rw [List.mem_singleton.1 hn]
      exact hh
    · rw [if_neg hh]
      exact ⟨List.nodup_nil, fun n hn => absurd hn (List.not_mem_nil n)⟩
  obtain ⟨hknd, hkord, hksub⟩ := kahn_invariant g (reachableFrom g head).length
    [] (reachableFrom g head) List.nodup_nil hreach.1
    (fun n _ => List.not_mem_nil n)
    (fun x hx => absurd hx (List.not_mem_nil x))
  have hna : isNode g a = true := by
    rcases hksub a ha with h | h
    · exact absurd h (List.not_mem_nil a)
    · exact hreach.2 a h
  exact (hkord b hb a hpar hna).2

/-- Witness for claim C1 on a three-commit linear history walked from its
head: the root is placed before its child. -/
theorem c1_collect_topological_witness :
    List.indexOf 0 (collect_all_commits [(0, []), (1, [0]), (2, [1])] 2) <
      List.indexOf 1 (collect_all_commits [(0, []), (1, [0]), (2, [1])] 2) :=
  c1_collect_topological [(0, []), (1, [0]), (2, [1])] 2 0 1
    (by decide) (by decide) (by decide)

/-- Witness for claim C7 at a concrete manifest with one commit. -/
theorem c7_manifest_shape_witness :
    (commitMetaJson ⟨"s", [], "a", "e", ⟨0, 0, 0⟩, "m", "t", []⟩).map Prod.fst =
      ["sha", "parents", "author_name", "author_email", "date", "message",
        "tree_sha", "folder"] :=
  (c7_manifest_shape ⟨"n", "b", [⟨"s", [], "a", "e", ⟨0, 0, 0⟩, "m", "t", []⟩]⟩).2.1 _
    (List.mem_cons_self _ _)

/-- Helper: a path equal to a leading segment plus a remainder is
segment-related. -/
theorem segPre_of_eq_append {p q : List String} {r : List String}
    (h : q = p ++ r) : SegPre p q := by
  rw [h]
  unfold SegPre
  exact List.take_left p r

/-- Helper: a leading segment can be completed to the whole path. -/
theorem segPre_ex {p q : List String} (h : SegPre p q) : ∃ r, q = p ++ r := by
  refine ⟨q.drop p.length, ?_⟩
  conv_lhs => rw [← List.take_append_drop p.length q]
  rw [h]

/-- Helper: segment reflexivity. -/
theorem segPre_refl (p : List String) : SegPre p p :=
  segPre_of_eq_append (by rw [List.append_nil])

/-- Helper: a path is a leading segment of its extensions. -/
theorem segPre_append (p r : List String) : SegPre p (p ++ r) :=
  segPre_of_eq_append rfl

/-- Helper: segment transitivity. -/
theorem segPre_trans {p q s : List String} (h1 : SegPre p q)
    (h2 : SegPre q s) : SegPre p s := by
  obtain ⟨r1, e1⟩ := segPre_ex h1
  obtain ⟨r2, e2⟩ := segPre_ex h2
  exact segPre_of_eq_append (by rw [e2, e1, List.append_assoc])

/-- Helper: a leading segment is no longer than the path. -/
theorem segPre_length {p q : List String} (h : SegPre p q) :
    p.length ≤ q.length := by
  obtain ⟨r, e⟩ := segPre_ex h
  rw [e, List.length_append]
  omega

/-- Helper: leading segments of one path with equal length are equal. -/
theorem segPre_eq_of_length {p p' q : List String} (h1 : SegPre p q)
    (h2 : SegPre p' q) (hl : p.length = p'.length) : p = p' := by
  unfold SegPre at h1 h2
  rw [← h1, ← h2, hl]

/-- Helper: a strict extension is not a leading segment. -/
theorem not_segPre_snoc (p : List String) (x : String) :
    ¬ SegPre (p ++ [x]) p := by
  intro h
  have := segPre_length h
  rw [List.length_append] at this
  simp at this

/-- Helper: one-component extensions of the same path that lead into the
same path share the component. -/
theorem segPre_cons_eq {cwd q : List String} {n n' : String}
    (h1 : SegPre (cwd ++ [n]) q) (h2 : SegPre (cwd ++ [n']) q) : n = n' := by
  have h := segPre_eq_of_length h1 h2 (by simp)
  have h' := List.append_cancel_left h
  simpa using h'

/-- Helper: every take is a leading segment. -/
theorem segPre_take (p : List String) (m : Nat) : SegPre (p.take m) p :=
  segPre_of_eq_append (List.take_append_drop m p).symm

/-- Helper: the domain of an appended region. -/
theorem dom_append (fs1 fs2 : FS) : dom (fs1 ++ fs2) = dom fs1 ++ dom fs2 :=
  List.map_append _ _ _

/-- Helper: the domain of an extended region. -/
theorem dom_cons (e : List String × FNode) (fs : FS) :
    dom (e :: fs) = e.1 :: dom fs := rfl

/-- Helper: the nonempty leading segments of an extended path. -/
theorem prefixesOf_snoc (l : List String) (x : String) :
    prefixesOf (l ++ [x]) = prefixesOf l ++ [l ++ [x]] := by
  unfold prefixesOf
  rw [List.length_append, List.length_singleton, List.range_succ,
    List.map_append]
  congr 1
  · apply List.map_congr_left
    intro k hk
    rw [List.mem_range] at hk
    exact List.take_eq_left_iff.2 (Or.inr (by omega))
  · rw [List.map_singleton]
    rw [List.take_of_length_le (by rw [List.length_append, List.length_singleton])]

/-- Helper: creating directories that all exist changes nothing. -/
theorem foldl_mkdirOne_no_op :
    ∀ (l : List (List String)) (fs : FS), (∀ q ∈ l, q ∈ dom fs) →
      l.foldl mkdirOne fs = fs
  | [], _, _ => rfl
  | q :: l, fs, h => by
      rw [List.foldl_cons]
      have hq : mkdirOne fs q = fs := by
        unfold mkdirOne
        rw [if_pos (h q (List.mem_cons_self q l))]
      rw [hq]
      exact foldl_mkdirOne_no_op l fs fun r hr => h r (List.mem_cons_of_mem q hr)

/-- Helper: create_dir_all of a directory whose chain exists is a no-op. -/
theorem mkdirAll_no_op {cwd : List String} {fs : FS}
    (h : ∀ q ∈ prefixesOf cwd, q ∈ dom fs) : mkdirAll cwd fs = fs :=
  foldl_mkdirOne_no_op _ fs h

/-- Helper: create_dir_all of a fresh directory under an existing chain
appends exactly that directory. -/
theorem mkdirAll_snoc {cwd : List String} {n : String} {fs : FS}
    (hpre : ∀ q ∈ prefixesOf cwd, q ∈ dom fs)
    (hnot : (cwd ++ [n]) ∉ dom fs) :
    mkdirAll (cwd ++ [n]) fs = fs ++ [(cwd ++ [n], FNode.dir)] := by
  unfold mkdirAll
  rw [prefixesOf_snoc, List.foldl_append, foldl_mkdirOne_no_op _ fs hpre,
    List.foldl_cons, List.foldl_nil]
  unfold mkdirOne
  rw [if_neg hnot]

/-- Helper: inversion of a successful tree lookup. -/
theorem find_tree_ok {store : Store} {oid : Nat} {es : List TreeEntry}
    (h : find_tree store oid = Except.ok es) :
    store.lookup oid = some (GObj.tree es) := by
  unfold find_tree at h
  cases hl : store.lookup oid with
  | none => rw [hl] at h; exact Except.noConfusion h
  | some o =>
      cases o with
      | blob c => rw [hl] at h; exact Except.noConfusion h
      | tree es2 =>
          rw [hl] at h
          injection h with h
          rw [h]
      | other => rw [hl] at h; exact Except.noConfusion h

/-- Helper: in a well-formed store the entry names of any tree found are
pairwise distinct. -/
theorem wfStore_tree_nodup (store : Store) (hwf : WFStore store) (oid : Nat)
    (es : List TreeEntry) (h : find_tree store oid = Except.ok es) :
    (es.map fun e => e.name).Nodup := by
  have hmem := lookup_value_mem store oid (GObj.tree es) (find_tree_ok h)
  obtain ⟨pr, hpr, hsnd⟩ := List.mem_map.1 hmem
  have hok := hwf pr hpr
  rw [hsnd] at hok
  exact hok

/-- Helper: the entry fold, run on a region whose current chain exists
and which holds nothing under the entries about to be written, appends
exactly the denotation of the entries, provided the sub-tree treatment
refines the sub-tree denotation in the same sense. -/
theorem exportFold_denote (store : Store)
    (subT : Nat → List String → FS → Except RunErr FS)
    (subD : Nat → List String → Option FS)
    (hsub : ∀ oid path fsa fso,
      (∀ q ∈ prefixesOf path, q ∈ dom fsa) →
      (∀ p ∈ dom fsa, SegPre path p → p = path) →
      subT oid path fsa = Except.ok fso →
      ∃ l, subD oid path = some l ∧ fso = fsa ++ l ∧
        ∀ p ∈ dom l, SegPre path p) :
    ∀ (es : List TreeEntry) (cwd : List String) (fs0 fs' : FS),
      (es.map fun e => e.name).Nodup →
      (∀ q ∈ prefixesOf cwd, q ∈ dom fs0) →
      (∀ p ∈ dom fs0, ∀ n : String, some n ∈ es.map (fun e => e.name) →
        ¬ SegPre (cwd ++ [n]) p) →
      exportFold store subT es cwd fs0 = Except.ok fs' →
      ∃ l, denoteFold store subD es cwd = some l ∧ fs' = fs0 ++ l ∧
        ∀ p ∈ dom l, ∃ n : String, some n ∈ es.map (fun e => e.name) ∧
          SegPre (cwd ++ [n]) p := by
  intro es
  induction es with
  | nil =>
      intro cwd fs0 fs' _ _ _ hok
      refine ⟨[], rfl, ?_, fun p hp => absurd hp (List.not_mem_nil p)⟩
      have h0 : fs0 = fs' := by simpa [exportFold] using hok
      rw [← h0, List.append_nil]
  | cons e es ihe =>
      intro cwd fs0 fs' hnd hpre hnt hok
      have hnd' : (es.map fun e => e.name).Nodup :=
        (List.nodup_cons.1 (by rwa [List.map_cons] at hnd)).2
      have hhead : e.name ∉ es.map fun e => e.name :=
        (List.nodup_cons.1 (by rwa [List.map_cons] at hnd)).1
      have htail : ∀ n' : String, some n' ∈ es.map (fun e => e.name) →
          some n' ∈ (e :: es).map fun e => e.name := by
        intro n' hn'
        rw [List.map_cons]
        exact List.mem_cons_of_mem _ hn'
      cases hname : e.name with
      | none =>
          simp only [exportFold, hname] at hok
          exact Except.noConfusion hok
      | some n =>
          have hmemn : some n ∈ (e :: es).map fun e => e.name := by
            rw [List.map_cons, hname]
            exact List.mem_cons_self _ _
          have hnmem : (cwd ++ [n]) ∉ dom fs0 := fun hc =>
            hnt _ hc n hmemn (segPre_refl _)
          cases hkind : e.kind with
          | blob =>
              cases hfb : find_blob store e.id with
              | error er =>
                  simp only [exportFold, hname, hkind, hfb] at hok
                  exact Except.noConfusion hok
              | ok c =>
                  simp only [exportFold, hname, hkind, hfb] at hok
                  rw [mkdirAll_no_op hpre] at hok
                  have hwr : writeFS (cwd ++ [n]) c fs0 =
                      fs0 ++ [(cwd ++ [n], FNode.file c)] := by
                    unfold writeFS
                    rw [if_neg hnmem]
                  rw [hwr] at hok
                  obtain ⟨l, hden, hfs, hdom⟩ := ihe cwd
                    (fs0 ++ [(cwd ++ [n], FNode.file c)]) fs' hnd'
                    (fun q hq => by
                      rw [dom_append]
                      exact List.mem_append_left _ (hpre q hq))
                    (fun p hp n' hn' hseg => by
                      rw [dom_append] at hp
                      rcases List.mem_append.1 hp with hp | hp
                      · exact hnt p hp n' (htail n' hn') hseg
                      · have hp' : p = cwd ++ [n] := by simpa [dom] using hp
                        subst hp'
                        have hnn : n' = n := segPre_cons_eq hseg (segPre_refl _)
                        subst hnn
                        exact hhead (hname ▸ hn'))
                    hok
                  refine ⟨(cwd ++ [n], FNode.file c) :: l, ?_, ?_, ?_⟩
                  · simp only [denoteFold, hname, hkind, hfb, hden]
                  · rw [hfs, List.append_assoc, List.singleton_append]
                  · intro p hp
                    rw [dom_cons] at hp
                    rcases List.mem_cons.1 hp with h | h
                    · exact ⟨n, hmemn, h ▸ segPre_refl _⟩
                    · obtain ⟨n', hn', hseg⟩ := hdom p h
                      exact ⟨n', htail n' hn', hseg⟩
          | tree =>
              simp only [exportFold, hname, hkind] at hok
              rw [mkdirAll_snoc hpre hnmem] at hok
              cases hrec : subT e.id (cwd ++ [n])
                  (fs0 ++ [(cwd ++ [n], FNode.dir)]) with
              | error er =>
                  rw [hrec] at hok
                  exact Except.noConfusion hok
              | ok fsmid =>
                  rw [hrec] at hok
                  have hok' : exportFold store subT es cwd fsmid =
                      Except.ok fs' := hok
                  obtain ⟨l1, hden1, hfs1, hdom1⟩ := hsub e.id (cwd ++ [n])
                    (fs0 ++ [(cwd ++ [n], FNode.dir)]) fsmid
                    (fun q hq => by
                      rw [prefixesOf_snoc] at hq
                      rw [dom_append]
                      rcases List.mem_append.1 hq with hq | hq
                      · exact List.mem_append_left _ (hpre q hq)
                      · refine List.mem_append_right _ ?_
                        simp [dom, List.mem_singleton.1 hq])
                    (fun p hp hseg => by
                      rw [dom_append] at hp
                      rcases List.mem_append.1 hp with hp | hp
                      · exact absurd hseg (hnt p hp n hmemn)
                      · simpa [dom] using hp)
                    hrec
                  obtain ⟨l2, hden2, hfs2, hdom2⟩ := ihe cwd fsmid fs' hnd'
                    (fun q hq => by
                      rw [hfs1, dom_append, dom_append]
                      exact List.mem_append_left _
                        (List.mem_append_left _ (hpre q hq)))
                    (fun p hp n' hn' hseg => by
                      rw [hfs1, dom_append, dom_append] at hp
                      rcases List.mem_append.1 hp with hp | hp
                      · rcases List.mem_append.1 hp with hp | hp
                        · exact hnt p hp n' (htail n' hn') hseg
                        · have hp' : p = cwd ++ [n] := by simpa [dom] using hp
                          subst hp'
                          have hnn : n' = n := segPre_cons_eq hseg (segPre_refl _)
                          subst hnn
                          exact hhead (hname ▸ hn')
                      · have hsegn : SegPre (cwd ++ [n]) p := hdom1 p hp
                        have hnn : n' = n := segPre_cons_eq hseg hsegn
                        subst hnn
                        exact hhead (hname ▸ hn'))
                    hok'
                  refine ⟨(cwd ++ [n], FNode.dir) :: (l1 ++ l2), ?_, ?_, ?_⟩
                  · simp only [denoteFold, hname, hkind, hden1, hden2]
                  · rw [hfs2, hfs1, List.append_assoc, List.append_assoc,
                      List.singleton_append]
                  · intro p hp
                    rw [dom_cons] at hp
                    rcases List.mem_cons.1 hp with h | h
                    · exact ⟨n, hmemn, h ▸ segPre_refl _⟩
                    · rw [dom_append] at h
                      rcases List.mem_append.1 h with h | h
                      · exact ⟨n, hmemn, hdom1 p h⟩
                      · obtain ⟨n', hn', hseg⟩ := hdom2 p h
                        exact ⟨n', htail n' hn', hseg⟩
          | commit =>
              simp only [exportFold, hname, hkind] at hok
              obtain ⟨l, hden, hfs, hdom⟩ := ihe cwd fs0 fs' hnd' hpre
                (fun p hp n' hn' hseg => hnt p hp n' (htail n' hn') hseg)
                hok
              refine ⟨l, ?_, hfs, fun p hp => ?_⟩
              · simp only [denoteFold, hname, hkind, hden]
              · obtain ⟨n', hn', hseg⟩ := hdom p hp
                exact ⟨n', htail n' hn', hseg⟩

/-- Helper: at every depth, the stateful exporter run on a region whose
current chain exists and which holds nothing under the processed entries
appends exactly the denotation of the entries. -/
theorem exportEntries_denote (store : Store) (hwf : WFStore store) :
    ∀ (fuel : Nat) (es : List TreeEntry) (cwd : List String) (fs0 fs' : FS),
      (es.map fun e => e.name).Nodup →
      (∀ q ∈ prefixesOf cwd, q ∈ dom fs0) →
      (∀ p ∈ dom fs0, ∀ n : String, some n ∈ es.map (fun e => e.name) →
        ¬ SegPre (cwd ++ [n]) p) →
      exportEntries store fuel es cwd fs0 = Except.ok fs' →
      ∃ l, denoteEntries store fuel es cwd = some l ∧ fs' = fs0 ++ l ∧
        ∀ p ∈ dom l, ∃ n : String, some n ∈ es.map (fun e => e.name) ∧
          SegPre (cwd ++ [n]) p := by
  intro fuel
  induction fuel with
  | zero =>
      intro es cwd fs0 fs' h1 h2 h3 hok
      simp only [exportEntries] at hok
      simp only [denoteEntries]
      exact exportFold_denote store _ _
        (fun oid path fsa fso _ _ h => Except.noConfusion h)
        es cwd fs0 fs' h1 h2 h3 hok
  | succ fuel ih =>
      intro es cwd fs0 fs' h1 h2 h3 hok
      simp only [exportEntries] at hok
      simp only [denoteEntries]
      refine exportFold_denote store _ _ ?_ es cwd fs0 fs' h1 h2 h3 hok
      intro oid path fsa fso hchain hfree hokT
      cases hft : find_tree store oid with
      | error er =>
          rw [hft] at hokT
          exact Except.noConfusion hokT
      | ok sub =>
          rw [hft] at hokT
          have hokT' : exportEntries store fuel sub path fsa =
              Except.ok fso := hokT
          obtain ⟨l, hden, hfs, hdoml⟩ := ih sub path fsa fso
            (wfStore_tree_nodup store hwf oid sub hft) hchain
            (fun p hp n _ hseg =>
              not_segPre_snoc path n
                ((hfree p hp (segPre_trans (segPre_append path [n]) hseg)) ▸
                  hseg))
            hokT'
          refine ⟨l, ?_, hfs, fun p hp => ?_⟩
          · exact hden
          · obtain ⟨n, _, hseg⟩ := hdoml p hp
            exact segPre_trans (segPre_append path [n]) hseg

/-- Claim C4: whenever export_tree completes successfully against a
pre-cleaned output directory (over a well-formed store), the output region
is exactly the regular files and directories represented by the tree, with
byte-identical content at identical relative paths and nothing else;
entries that are neither blobs nor sub-trees are skipped without error, as
the denotation assigns them nothing. -/
theorem c4_export_tree_exact (store : Store) (fuel oid : Nat) (fs : FS)
    (hwf : WFStore store)
    (hok : export_tree store fuel oid [] = Except.ok fs) :
    denoteTree store fuel oid = some fs := by
  unfold export_tree at hok
  cases hft : find_tree store oid with
  | error er =>
      rw [hft] at hok
      exact Except.noConfusion hok
  | ok es =>
      rw [hft] at hok
      obtain ⟨l, hden, hfs, _⟩ := exportEntries_denote store hwf fuel es [] [] fs
        (wfStore_tree_nodup store hwf oid es hft)
        (fun q hq => by simp [prefixesOf] at hq)
        (fun p hp => by simp [dom] at hp)
        hok
      have hgoal : denoteEntries store fuel es [] = some fs := by
        rw [hfs, List.nil_append]
        exact hden
      unfold denoteTree
      rw [hft]
      exact hgoal

/-- Helper: find_tree can only fail with a returned failure, never with a
panic. -/
theorem find_tree_error {store : Store} {oid : Nat} {er : RunErr}
    (h : find_tree store oid = Except.error er) : er = RunErr.fail := by
  unfold find_tree at h
  cases hl : store.lookup oid with
  | none => rw [hl] at h; injection h with h; exact h.symm
  | some o =>
      cases o with
      | tree es => rw [hl] at h; exact Except.noConfusion h
      | blob c => rw [hl] at h; injection h with h; exact h.symm
      | other => rw [hl] at h; injection h with h; exact h.symm

/-- Helper: find_blob can only fail with a returned failure, never with a
panic. -/
theorem find_blob_error {store : Store} {oid : Nat} {er : RunErr}
    (h : find_blob store oid = Except.error er) : er = RunErr.fail := by
  unfold find_blob at h
  cases hl : store.lookup oid with
  | none => rw [hl] at h; injection h with h; exact h.symm
  | some o =>
      cases o with
      | blob c => rw [hl] at h; exact Except.noConfusion h
      | tree es => rw [hl] at h; injection h with h; exact h.symm
      | other => rw [hl] at h; injection h with h; exact h.symm

/-- Helper: in a store with only valid UTF-8 names, every found tree has
only valid UTF-8 entry names. -/
theorem allNames_sub (store : Store) (hall : AllNamesUTF8 store) {oid : Nat}
    {es : List TreeEntry} (h : find_tree store oid = Except.ok es) :
    ∀ e ∈ es, e.name.isSome = true := by
  have hmem := lookup_value_mem store oid (GObj.tree es) (find_tree_ok h)
  obtain ⟨pr, hpr, hsnd⟩ := List.mem_map.1 hmem
  have hok := hall pr hpr
  rw [hsnd] at hok
  exact hok

/-- Helper: when the sub-tree treatment never panics and every processed
entry name is valid UTF-8, the entry fold never panics. -/
theorem exportFold_no_panic (store : Store)
    (subT : Nat → List String → FS → Except RunErr FS)
    (hsub : ∀ oid path fs, subT oid path fs ≠ Except.error RunErr.panic) :
    ∀ (es : List TreeEntry) (cwd : List String) (fs : FS),
      (∀ e ∈ es, e.name.isSome = true) →
      exportFold store subT es cwd fs ≠ Except.error RunErr.panic
  | [], _, _, _ => by simp [exportFold]
  | e :: es, cwd, fs, hnames => by
      have htail : ∀ x ∈ es, x.name.isSome = true :=
        fun x hx => hnames x (List.mem_cons_of_mem e hx)
      cases hname : e.name with
      | none =>
          have hh := hnames e (List.mem_cons_self e es)
          rw [hname] at hh
          exact absurd hh (by simp)
      | some n =>
          cases hkind : e.kind with
          | blob =>
              cases hfb : find_blob store e.id with
              | error er =>
                  simp only [exportFold, hname, hkind, hfb]
                  intro hc
                  injection hc with hc
                  rw [find_blob_error hfb] at hc
                  exact RunErr.noConfusion hc
              | ok c =>
                  simp only [exportFold, hname, hkind, hfb]
                  exact exportFold_no_panic store subT hsub es cwd _ htail
          | tree =>
              cases hrec : subT e.id (cwd ++ [n]) (mkdirAll (cwd ++ [n]) fs) with
              | error er =>
                  simp only [exportFold, hname, hkind, hrec]
                  intro hc
                  injection hc with hc
                  exact hsub e.id (cwd ++ [n]) (mkdirAll (cwd ++ [n]) fs)
                    (by rw [hrec, hc])
              | ok fs' =>
                  simp only [exportFold, hname, hkind, hrec]
                  exact exportFold_no_panic store subT hsub es cwd fs' htail
          | commit =>
              simp only [exportFold, hname, hkind]
              exact exportFold_no_panic store subT hsub es cwd fs htail

/-- Helper: over a store with only valid UTF-8 names, the exporter never
panics at any depth. -/
theorem exportEntries_no_panic (store : Store) (hall : AllNamesUTF8 store) :
    ∀ (fuel : Nat) (es : List TreeEntry) (cwd : List String) (fs : FS),
      (∀ e ∈ es, e.name.isSome = true) →
      exportEntries store fuel es cwd fs ≠ Except.error RunErr.panic := by
  intro fuel
  induction fuel with
  | zero =>
      intro es cwd fs h
      simp only [exportEntries]
      refine exportFold_no_panic store _ ?_ es cwd fs h
      intro oid path fsx hc
      injection hc with hc
      exact RunErr.noConfusion hc
  | succ fuel ih =>
      intro es cwd fs h
      simp only [exportEntries]
      refine exportFold_no_panic store _ ?_ es cwd fs h
      intro oid path fsx
      cases hft : find_tree store oid with
      | error er =>
          intro hc
          injection hc with hc
          rw [find_tree_error hft] at hc
          exact RunErr.noConfusion hc
      | ok sub => exact ih sub path fsx (allNames_sub store hall hft)

/-- Claim C8: export_tree is total only under the precondition that every
entry name is valid UTF-8: a concrete tree with a non-UTF-8 entry name
makes it panic (the unchecked name unwrap), which is distinct from a
returned error, while under the precondition it never panics. -/
theorem c8_export_tree_name_panic :
    export_tree [(1, GObj.tree [⟨none, 2, EKind.blob⟩]), (2, GObj.blob [7])]
        1 1 [] = Except.error RunErr.panic ∧
      ∀ (store : Store) (fuel oid : Nat) (fs : FS), AllNamesUTF8 store →
        export_tree store fuel oid fs ≠ Except.error RunErr.panic := by
  constructor
  · rfl
  · intro store fuel oid fs hall
    unfold export_tree
    cases hft : find_tree store oid with
    | error er =>
        intro hc
        injection hc with hc
        rw [find_tree_error hft] at hc
        exact RunErr.noConfusion hc
    | ok es =>
        exact exportEntries_no_panic store hall fuel es [] fs
          (allNames_sub store hall hft)

/-- Witness for claim C8: over a concrete store whose entry names are all
valid UTF-8, export does not panic. -/
theorem c8_export_tree_name_panic_witness :
    export_tree [(1, GObj.tree [⟨some "ok.txt", 2, EKind.blob⟩]),
        (2, GObj.blob [7])] 1 1 [] ≠ Except.error RunErr.panic :=
  c8_export_tree_name_panic.2 _ 1 1 [] (by decide)

/-- Witness for claim C4 on a concrete store holding a tree with one
blob, one sub-tree with its own blob, and one submodule link. -/
theorem c4_export_tree_exact_witness :
    denoteTree
        [(1, GObj.tree [⟨some "a.txt", 2, EKind.blob⟩,
            ⟨some "sub", 3, EKind.tree⟩, ⟨some "mod", 9, EKind.commit⟩]),
          (2, GObj.blob [104, 105]),
          (3, GObj.tree [⟨some "b.txt", 4, EKind.blob⟩]),
          (4, GObj.blob [1, 2, 3])] 2 1 =
      some [(["a.txt"], FNode.file [104, 105]), (["sub"], FNode.dir),
        (["sub", "b.txt"], FNode.file [1, 2, 3])] :=
  c4_export_tree_exact _ 2 1 _ (by decide) rfl


/-- Helper: directory creation only adds entries, never removes them. -/
theorem mem_foldl_mkdirOne :
    ∀ (l : List (List String)) (d : FS) (x : List String × FNode),
      x ∈ d → x ∈ l.foldl mkdirOne d
  | [], _, _, h => h
  | q :: l, d, x, h => by
      rw [List.foldl_cons]
      refine mem_foldl_mkdirOne l (mkdirOne d q) x ?_
      unfold mkdirOne
      by_cases hq : q ∈ dom d
      · rw [if_pos hq]; exact h
      · rw [if_neg hq]; exact List.mem_append_left _ h

/-- Helper: create_dir_all only adds entries, never removes them. -/
theorem mem_mkdirAll (p : List String) (d : FS) (x : List String × FNode)
    (h : x ∈ d) : x ∈ mkdirAll p d :=
  mem_foldl_mkdirOne _ _ _ h

/-- Helper: the domain after a directory-creation fold grows only by the
created paths. -/
theorem dom_foldl_mkdirOne :
    ∀ (l : List (List String)) (d : FS) (q : List String),
      q ∈ dom (l.foldl mkdirOne d) → q ∈ dom d ∨ q ∈ l
  | [], _, _, h => Or.inl h
  | a :: l, d, q, h => by
      rw [List.foldl_cons] at h
      rcases dom_foldl_mkdirOne l (mkdirOne d a) q h with h | h
      · unfold mkdirOne at h
        by_cases ha : a ∈ dom d
        · rw [if_pos ha] at h; exact Or.inl h
        · rw [if_neg ha] at h
          rw [dom_append] at h
          rcases List.mem_append.1 h with h | h
          · exact Or.inl h
          · have hqa : q = a := by simpa [dom] using h
            exact Or.inr (hqa ▸ List.mem_cons_self a l)
      · exact Or.inr (List.mem_cons_of_mem a h)

/-- Helper: create_dir_all adds only leading segments of its argument. -/
theorem dom_mkdirAll_sub {p : List String} {d : FS} {q : List String}
    (h : q ∈ dom (mkdirAll p d)) : q ∈ dom d ∨ SegPre q p := by
  rcases dom_foldl_mkdirOne _ _ _ h with h | h
  · exact Or.inl h
  · right
    unfold prefixesOf at h
    obtain ⟨k, _, hk⟩ := List.mem_map.1 h
    rw [← hk]
    exact segPre_take p (k + 1)

/-- Helper: the domain after a file write grows at most by the written
path. -/
theorem dom_writeFS (p : List String) (c : List Nat) (d : FS) :
    dom (writeFS p c d) = if p ∈ dom d then dom d else dom d ++ [p] := by
  unfold writeFS
  by_cases hp : p ∈ dom d
  · rw [if_pos hp, if_pos hp]
    unfold dom
    rw [List.map_map]
    apply List.map_congr_left
    intro e _
    by_cases he : e.1 = p
    · simp [he]
    · simp [he]
  · rw [if_neg hp, if_neg hp, dom_append]
    rfl

/-- Helper: after a write, the written file is present. -/
theorem writeFS_mem (p : List String) (c : List Nat) (d : FS) :
    (p, FNode.file c) ∈ writeFS p c d := by
  unfold writeFS
  by_cases hp : p ∈ dom d
  · rw [if_pos hp]
    obtain ⟨e, he, hq⟩ := List.mem_map.1 hp
    refine List.mem_map.2 ⟨e, he, ?_⟩
    rw [if_pos hq]
  · rw [if_neg hp]
    exact List.mem_append_right _ (List.mem_cons_self _ _)

/-- Helper: a write at a different path preserves an entry. -/
theorem writeFS_mem_preserved {x : List String × FNode} {d : FS}
    {p : List String} {c : List Nat} (hx : x ∈ d) (hne : x.1 ≠ p) :
    x ∈ writeFS p c d := by
  unfold writeFS
  by_cases hp : p ∈ dom d
  · rw [if_pos hp]
    refine List.mem_map.2 ⟨x, hx, ?_⟩
    rw [if_neg hne]
  · rw [if_neg hp]
    exact List.mem_append_left _ hx

/-- Helper: the copy step for the walk root entry. -/
theorem copyStep_none (dest : FS) (q : List String) (node : FNode)
    (hql : q.getLast? = none) : copyStep dest q node = dest := by
  unfold copyStep
  rw [hql]

/-- Helper: the copy step for a reserved-named entry is a skip. -/
theorem copyStep_skip (dest : FS) (q : List String) (node : FNode)
    (nm : String) (hql : q.getLast? = some nm) (hm : nm = metaName) :
    copyStep dest q node = dest := by
  unfold copyStep
  rw [hql]
  simp [hm]

/-- Helper: the copy step for a directory entry. -/
theorem copyStep_dir (dest : FS) (q : List String) (nm : String)
    (hql : q.getLast? = some nm) (hm : ¬ nm = metaName) :
    copyStep dest q FNode.dir = mkdirAll q dest := by
  unfold copyStep
  rw [hql]
  simp [hm]

/-- Helper: the copy step for a file entry. -/
theorem copyStep_file (dest : FS) (q : List String) (c : List Nat)
    (nm : String) (hql : q.getLast? = some nm) (hm : ¬ nm = metaName) :
    copyStep dest q (FNode.file c) = writeFS q c (mkdirAll q.dropLast dest) := by
  unfold copyStep
  rw [hql]
  simp [hm]

/-- Helper: a path stays absent from the destination when every walk
entry that it leads into is the reserved-named path itself. -/
theorem copy_absent :
    ∀ (entries : List (List String × FNode)) (dest : FS) (p : List String),
      p ∉ dom dest →
      (∀ qr ∈ entries, SegPre p qr.1 →
        qr.1 = p ∧ p.getLast? = some metaName) →
      p ∉ dom (copy_commit_files entries dest)
  | [], _, _, hnd, _ => hnd
  | (q, node) :: entries, dest, p, hnd, hcond => by
      have hstep : p ∉ dom (copyStep dest q node) := by
        cases hql : q.getLast? with
        | none =>
            rw [copyStep_none dest q node hql]
            exact hnd
        | some nm =>
            by_cases hskip : nm = metaName
            · rw [copyStep_skip dest q node nm hql hskip]
              exact hnd
            · have hq : SegPre p q → False := fun hseg => by
                obtain ⟨hqp, hres⟩ :=
                  hcond (q, node) (List.mem_cons_self _ _) hseg
                have hqp' : q = p := hqp
                rw [hqp', hres] at hql
                injection hql with hql
                exact hskip hql.symm
              cases node with
              | dir =>
                  rw [copyStep_dir dest q nm hql hskip]
                  intro hc
                  rcases dom_mkdirAll_sub hc with hc | hc
                  · exact hnd hc
                  · exact hq hc
              | file c =>
                  rw [copyStep_file dest q c nm hql hskip]
                  intro hc
                  rw [dom_writeFS] at hc
                  have hdl : SegPre q.dropLast q :=
                    segPre_of_eq_append
                      (List.dropLast_append_getLast? nm
                        (Option.mem_def.2 hql)).symm
                  by_cases hqm : q ∈ dom (mkdirAll q.dropLast dest)
                  · rw [if_pos hqm] at hc
                    rcases dom_mkdirAll_sub hc with hc | hc
                    · exact hnd hc
                    · exact hq (segPre_trans hc hdl)
                  · rw [if_neg hqm] at hc
                    rcases List.mem_append.1 hc with hc | hc
                    · rcases dom_mkdirAll_sub hc with hc | hc
                      · exact hnd hc
                      · exact hq (segPre_trans hc hdl)
                    · have hpq : p = q := List.mem_singleton.1 hc
                      exact hq (hpq ▸ segPre_refl p)
      exact copy_absent entries (copyStep dest q node) p hstep
        fun qr hqr => hcond qr (List.mem_cons_of_mem _ hqr)

/-- Helper: an entry already present survives the rest of the walk when
no later walk entry writes its path. -/
theorem copy_keeps :
    ∀ (entries : List (List String × FNode)) (dest : FS)
      (x : List String × FNode),
      x ∈ dest → (∀ qr ∈ entries, qr.1 ≠ x.1) →
      x ∈ copy_commit_files entries dest
  | [], _, _, hx, _ => hx
  | (q, node) :: entries, dest, x, hx, hne => by
      have hstep : x ∈ copyStep dest q node := by
        cases hql : q.getLast? with
        | none =>
            rw [copyStep_none dest q node hql]
            exact hx
        | some nm =>
            by_cases hskip : nm = metaName
            · rw [copyStep_skip dest q node nm hql hskip]
              exact hx
            · cases node with
              | dir =>
                  rw [copyStep_dir dest q nm hql hskip]
                  exact mem_mkdirAll q dest x hx
              | file c =>
                  rw [copyStep_file dest q c nm hql hskip]
                  refine writeFS_mem_preserved
                    (mem_mkdirAll q.dropLast dest x hx) ?_
                  intro hc
                  exact hne (q, FNode.file c) (List.mem_cons_self _ _) hc.symm
      exact copy_keeps entries (copyStep dest q node) x hstep
        fun qr hqr => hne qr (List.mem_cons_of_mem _ hqr)

/-- Claim C9: over a well-formed snapshot listing (paths distinct and
nonempty, file paths not leading into other paths), copy_commit_files
omits every file whose own base name is the reserved metadata name, at
any depth, while every other file is copied to the destination with its
content. -/
theorem c9_copy_skips_metadata (src : List (List String × FNode))
    (hnd : (src.map Prod.fst).Nodup)
    (hne : ∀ pr ∈ src, pr.1 ≠ [])
    (hfp : ∀ pr ∈ src, ∀ qr ∈ src,
      pr.2 = FNode.dir ∨ ¬ SegPre pr.1 qr.1 ∨ qr.1 = pr.1) :
    (∀ (dest : FS) (q : List String) (node : FNode),
        q.getLast? = some metaName → copyStep dest q node = dest) ∧
      (∀ p c, (p, FNode.file c) ∈ src → p.getLast? = some metaName →
        p ∉ dom (copy_commit_files src [])) ∧
      (∀ p c, (p, FNode.file c) ∈ src → p.getLast? ≠ some metaName →
        (p, FNode.file c) ∈ copy_commit_files src []) := by
  refine ⟨fun dest q node hql => copyStep_skip dest q node metaName hql rfl,
    ?_, ?_⟩
  · intro p c hmem hlast
    refine copy_absent src [] p (by simp [dom]) ?_
    intro qr hqr hseg
    rcases hfp (p, FNode.file c) hmem qr hqr with h | h | h
    · exact absurd h (by simp)
    · exact absurd hseg h
    · exact ⟨h, hlast⟩
  · intro p c hmem hlast
    obtain ⟨l1, l2, hsrc⟩ := List.append_of_mem hmem
    have hpnotin : p ∉ l2.map Prod.fst := by
      rw [hsrc, List.map_append, List.map_cons] at hnd
      exact (List.nodup_cons.1 (List.nodup_append.1 hnd).2.1).1
    have hp0 : p ≠ [] := hne (p, FNode.file c) hmem
    rw [hsrc]
    unfold copy_commit_files
    rw [List.foldl_append, List.foldl_cons]
    have hstep : (p, FNode.file c) ∈
        copyStep (l1.foldl (fun acc pr => copyStep acc pr.1 pr.2) []) p
          (FNode.file c) := by
      cases hql : p.getLast? with
      | none => exact absurd (List.getLast?_eq_none_iff.1 hql) hp0
      | some nm =>
          have hnm : ¬ nm = metaName := by
            intro hc
            rw [hc] at hql
            exact hlast hql
          rw [copyStep_file _ p c nm hql hnm]
          exact writeFS_mem p c _
    refine copy_keeps l2 _ (p, FNode.file c) hstep fun qr hqr hc => ?_
    have hc' : qr.1 = p := hc
    exact hpnotin (hc' ▸ List.mem_map_of_mem Prod.fst hqr)

/-- Witness for claim C9 on a snapshot with a nested reserved-named file:
the nested metadata file is omitted while the sibling file is copied. -/
theorem c9_copy_skips_metadata_witness :
    ["sub", ".commit-meta.json"] ∉ dom (copy_commit_files
        [(["sub"], FNode.dir), (["sub", ".commit-meta.json"], FNode.file [1]),
          (["sub", "a.txt"], FNode.file [2])] []) ∧
      (["sub", "a.txt"], FNode.file [2]) ∈ copy_commit_files
        [(["sub"], FNode.dir), (["sub", ".commit-meta.json"], FNode.file [1]),
          (["sub", "a.txt"], FNode.file [2])] [] := by
  have h := c9_copy_skips_metadata
    [(["sub"], FNode.dir), (["sub", ".commit-meta.json"], FNode.file [1]),
      (["sub", "a.txt"], FNode.file [2])] (by decide) (by decide) (by decide)
  exact ⟨h.2.1 ["sub", ".commit-meta.json"] [1] (by decide) (by decide),
    h.2.2 ["sub", "a.txt"] [2] (by decide) (by decide)⟩

end GitRewrite
